import Mathlib

/-!
Verification of the Turing machine simulator core (TuringMaster).

The definitions below are a shallow embedding of the simulator's logic:
the sparse tape store (`parseTapeString`, `getTapeString`, the tape
read/write helpers), the transition engine (`step`), the preset rule
tables, and the unary-arithmetic translator (`handleMathTranslate`).
JavaScript objects keyed by integers are embedded as association lists
`List (Int × Char)`; lookup takes the first binding for a key, and keys
are unique for every tape the program builds.  Fallible JavaScript
operations (`String.prototype.repeat` with a negative count throws a
`RangeError`) are embedded with `Except`.
-/

namespace TuringMaster

/-- The reserved blank symbol (`EMPTY_SYMBOL = '_'` in the source). -/
def EMPTY_SYMBOL : Char := '_'

/-- A tape is a sparse map from integer positions to symbols, embedded as an
association list (JS object `{ [pos: number]: string }`). -/
abbrev TapeType := List (Int × Char)

/-- Lookup of `t[p]`: the first binding for key `p`, if any. -/
def tapeGet (t : TapeType) (p : Int) : Option Char :=
  (t.find? (fun kv => kv.1 == p)).map (fun kv => kv.2)

/-- The read `t[p] || EMPTY_SYMBOL` used throughout the source: the stored
symbol, or blank when the key is absent. -/
def tapeRead (t : TapeType) (p : Int) : Char :=
  (tapeGet t p).getD EMPTY_SYMBOL

/-- Deletion `delete t[p]`: removes every binding for key `p`. -/
def tapeDelete (t : TapeType) (p : Int) : TapeType :=
  t.filter (fun kv => kv.1 != p)

/-- Assignment `t[p] = c`: replaces any binding for key `p` with the symbol `c`. -/
def tapeSet (t : TapeType) (p : Int) (c : Char) : TapeType :=
  tapeDelete t p ++ [(p, c)]

/-- Function `parseTapeString` (App.tsx): assigns positions `0..n-1` to the input
string's characters in order, storing every character — including `'_'`. -/
def parseTapeString (s : String) : TapeType :=
  s.toList.enum.map (fun ic => ((ic.1 : Int), ic.2))

/-- The list of keys present on the tape (`Object.keys(t).map(Number)`). -/
def tapeKeys (t : TapeType) : List Int :=
  t.map Prod.fst

/-- The smallest key of the tape (`indices[0]` after the numeric sort),
`none` when the tape is empty. -/
def tapeMinKey (t : TapeType) : Option Int :=
  match tapeKeys t with
  | [] => none
  | k :: ks => some (ks.foldl min k)

/-- The largest key of the tape (`indices[indices.length - 1]` after the
numeric sort), `none` when the tape is empty. -/
def tapeMaxKey (t : TapeType) : Option Int :=
  match tapeKeys t with
  | [] => none
  | k :: ks => some (ks.foldl max k)

/-- The untrimmed serialization loop of `getTapeString`: the characters
`t[i] || EMPTY_SYMBOL` for `i` from the minimum key to the maximum key. -/
def renderRaw (t : TapeType) : List Char :=
  match tapeMinKey t, tapeMaxKey t with
  | some mn, some mx =>
      (List.range ((mx - mn).toNat + 1)).map (fun j : Nat => tapeRead t (mn + (j : Int)))
  | _, _ => []

/-- The trim `str.replace(/^_+|_+$/g, '')`: removes the leading and trailing
runs of blanks. -/
def trimBlanks (cs : List Char) : List Char :=
  ((cs.dropWhile (fun c => c == EMPTY_SYMBOL)).reverse.dropWhile
      (fun c => c == EMPTY_SYMBOL)).reverse

/-- Function `getTapeString` (App.tsx): render the inclusive key range, blank-filled
in gaps, then trim surrounding blanks.  Empty tape serializes to `""`. -/
def getTapeString (t : TapeType) : String :=
  ⟨trimBlanks (renderRaw t)⟩

/-- Head move directions (`'L' | 'R' | 'N'`). -/
inductive MoveDirection
  | L
  | R
  | N
deriving DecidableEq

/-- A transition rule, field for field as in `types.ts`. -/
structure TransitionRule where
  currentState : String
  readSymbol : Char
  writeSymbol : Char
  moveDirection : MoveDirection
  nextState : String
deriving DecidableEq

/-- The run-controller status values. -/
inductive MachineStatus
  | IDLE
  | RUNNING
  | PAUSED
  | HALTED
deriving DecidableEq

/-- The UI mode (`'standard' | 'math'`), which selects the halt-time
interpretation of the final tape. -/
inductive AppMode
  | standard
  | math
deriving DecidableEq

/-- One execution-log entry (`{step, state, tapeSnippet}`). -/
structure LogEntry where
  step : Nat
  state : String
  tapeSnippet : String
deriving DecidableEq

/-- The machine state mutated by `step`: the React state variables that the
engine reads and writes. -/
structure MachineState where
  tape : TapeType
  headPos : Int
  currentState : String
  status : MachineStatus
  stepCount : Nat
  logs : List LogEntry
  finalOutput : Option String
  interpretedResult : Option String
  activeRuleIndex : Option Nat
  mode : AppMode
deriving DecidableEq

/-- The rule-match predicate of `rules.findIndex`:
`r.currentState === currentState && r.readSymbol === currentSym`. -/
def ruleMatches (st : String) (sym : Char) (r : TransitionRule) : Bool :=
  r.currentState == st && r.readSymbol == sym

/-- Lookup `rules.findIndex(...)` together with `rules[ruleIndex]`: the first rule in
list order matching `(st, sym)` and its index. -/
def findMatch (st : String) (sym : Char) : List TransitionRule → Option (Nat × TransitionRule)
  | [] => none
  | r :: rs =>
      if ruleMatches st sym r then some (0, r)
      else (findMatch st sym rs).map (fun ir => (ir.1 + 1, ir.2))

/-- The head movement: `-1` for `L`, `+1` for `R`, unchanged for `N`. -/
def moveHead (d : MoveDirection) (p : Int) : Int :=
  match d with
  | MoveDirection.L => p - 1
  | MoveDirection.R => p + 1
  | MoveDirection.N => p

/-- The regex test `finalStr.match(/^[1_]+$/)`: nonempty and every character
is `'1'` or blank. -/
def unaryRegexTest (s : String) : Bool :=
  s.length > 0 && s.toList.all (fun c => c == '1' || c == EMPTY_SYMBOL)

/-- Count `(finalStr.match(/1/g) || []).length`: the number of `'1'` characters. -/
def countOnes (s : String) : Nat :=
  s.toList.count '1'

/-- The halt-time interpretation of the final serialized tape (the body of
the `if (mode === 'math')` block in `step`). -/
def interpretHalt (mode : AppMode) (finalStr : String) : Option String :=
  match mode with
  | AppMode.math =>
      if finalStr == "" || unaryRegexTest finalStr then
        some ("Decimal Value: " ++ toString (countOnes finalStr))
      else
        some ("Raw Result: " ++ finalStr)
  | AppMode.standard =>
      if finalStr == "Y" || finalStr.toList.contains 'Y' then some "Accepted (True)"
      else if finalStr == "N" || finalStr.toList.contains 'N' then some "Rejected (False)"
      else none

/-- The log entry appended by every `step` invocation, before the branch on
the rule lookup: the next step number, the pre-transition state, and the
serialization of the tape strictly before this step's write. -/
def appendLog (s : MachineState) : List LogEntry :=
  s.logs ++ [{ step := s.stepCount + 1, state := s.currentState,
               tapeSnippet := getTapeString s.tape }]

/-- One invocation of `step` (App.tsx lines 132–195).  The symbol under the
head is read, the first matching rule is looked up, and one log entry is
appended.  If no rule matches, the machine halts: status becomes `HALTED`,
the final output and its interpretation are recorded, and tape, head, state
and step count are untouched.  Otherwise the rule is applied in full. -/
def step (rules : List TransitionRule) (s : MachineState) : MachineState :=
  match findMatch s.currentState (tapeRead s.tape s.headPos) rules with
  | none =>
      { s with status := MachineStatus.HALTED,
               logs := appendLog s,
               finalOutput := some (getTapeString s.tape),
               interpretedResult := interpretHalt s.mode (getTapeString s.tape) }
  | some (i, rule) =>
      { s with tape := if rule.writeSymbol == EMPTY_SYMBOL
                       then tapeDelete s.tape s.headPos
                       else tapeSet s.tape s.headPos rule.writeSymbol,
               currentState := rule.nextState,
               headPos := moveHead rule.moveDirection s.headPos,
               stepCount := s.stepCount + 1,
               logs := appendLog s,
               activeRuleIndex := some i }

/-- A preset as in `constants.ts`. -/
structure Preset where
  name : String
  description : String
  initialTape : String
  initialState : String
  rules : List TransitionRule
deriving DecidableEq

/-- Rule literal, field order as in the source data. -/
def mkRule (cs : String) (rd : Char) (wr : Char) (mv : MoveDirection) (nx : String) :
    TransitionRule :=
  { currentState := cs, readSymbol := rd, writeSymbol := wr,
    moveDirection := mv, nextState := nx }

/-- The `Binary Increment` preset rules. -/
def binaryIncrementRules : List TransitionRule :=
  [ mkRule "start" '0' '0' MoveDirection.R "start",
    mkRule "start" '1' '1' MoveDirection.R "start",
    mkRule "start" '_' '_' MoveDirection.L "add",
    mkRule "add" '0' '1' MoveDirection.L "done",
    mkRule "add" '1' '0' MoveDirection.L "add",
    mkRule "add" '_' '1' MoveDirection.R "done" ]

/-- The `Palindrome Detector` preset rules. -/
def palindromeRules : List TransitionRule :=
  [ mkRule "start" '0' '_' MoveDirection.R "have0",
    mkRule "start" '1' '_' MoveDirection.R "have1",
    mkRule "start" '_' 'Y' MoveDirection.N "accept",
    mkRule "have0" '0' '0' MoveDirection.R "have0",
    mkRule "have0" '1' '1' MoveDirection.R "have0",
    mkRule "have0" '_' '_' MoveDirection.L "match0",
    mkRule "match0" '0' '_' MoveDirection.L "back",
    mkRule "match0" '1' '1' MoveDirection.N "reject",
    mkRule "match0" '_' 'Y' MoveDirection.N "accept",
    mkRule "have1" '0' '0' MoveDirection.R "have1",
    mkRule "have1" '1' '1' MoveDirection.R "have1",
    mkRule "have1" '_' '_' MoveDirection.L "match1",
    mkRule "match1" '1' '_' MoveDirection.L "back",
    mkRule "match1" '0' '0' MoveDirection.N "reject",
    mkRule "match1" '_' 'Y' MoveDirection.N "accept",
    mkRule "back" '0' '0' MoveDirection.L "back",
    mkRule "back" '1' '1' MoveDirection.L "back",
    mkRule "back" '_' '_' MoveDirection.R "start" ]

/-- The `Ping Pong` preset rules: moves back and forth between two 1s
forever (an intentionally non-halting program). -/
def pingPongRules : List TransitionRule :=
  [ mkRule "right" '_' '_' MoveDirection.R "right",
    mkRule "right" '0' '0' MoveDirection.R "right",
    mkRule "right" '1' '1' MoveDirection.L "left",
    mkRule "left" '_' '_' MoveDirection.L "left",
    mkRule "left" '0' '0' MoveDirection.L "left",
    mkRule "left" '1' '1' MoveDirection.R "right" ]

/-- The `Unary Addition` preset rules. -/
def unaryAdditionRules : List TransitionRule :=
  [ mkRule "start" '1' '1' MoveDirection.R "start",
    mkRule "start" '+' '1' MoveDirection.R "go_end",
    mkRule "go_end" '1' '1' MoveDirection.R "go_end",
    mkRule "go_end" '_' '_' MoveDirection.L "remove_one",
    mkRule "remove_one" '1' '_' MoveDirection.N "done" ]

/-- The `Unary Subtraction` preset rules. -/
def unarySubtractionRules : List TransitionRule :=
  [ mkRule "start" '1' '1' MoveDirection.R "start",
    mkRule "start" '-' '-' MoveDirection.R "find_b",
    mkRule "start" '_' '_' MoveDirection.N "done",
    mkRule "find_b" '1' '1' MoveDirection.R "find_b",
    mkRule "find_b" '_' '_' MoveDirection.L "erase_b",
    mkRule "find_b" 'X' 'X' MoveDirection.L "erase_b",
    mkRule "erase_b" '1' '_' MoveDirection.L "find_a_tail",
    mkRule "erase_b" '-' '_' MoveDirection.N "done",
    mkRule "find_a_tail" '1' '1' MoveDirection.L "find_a_tail",
    mkRule "find_a_tail" '-' '-' MoveDirection.L "erase_a",
    mkRule "find_a_tail" '_' '_' MoveDirection.L "find_a_tail",
    mkRule "erase_a" '1' '_' MoveDirection.R "reset_start",
    mkRule "erase_a" '_' '_' MoveDirection.L "erase_a",
    mkRule "reset_start" '_' '_' MoveDirection.R "reset_start",
    mkRule "reset_start" '-' '-' MoveDirection.R "find_b",
    mkRule "reset_start" '1' '1' MoveDirection.R "reset_start" ]

/-- The preset table of `constants.ts`. -/
def PRESETS : List Preset :=
  [ { name := "Binary Increment",
      description := "Adds 1 to a binary number (Big Endian). Example: 1011 -> 1100",
      initialTape := "1011", initialState := "start", rules := binaryIncrementRules },
    { name := "Palindrome Detector",
      description := "Checks if a binary string is a palindrome. Clears tape if true, leaves 0 if false.",
      initialTape := "1001", initialState := "start", rules := palindromeRules },
    { name := "Ping Pong",
      description := "Moves back and forth between two 1s forever.",
      initialTape := "1_0_0_0_1", initialState := "right", rules := pingPongRules },
    { name := "Unary Addition",
      description := "Adds two unary numbers separated by \x22+\x22. Example: 11+11 -> 1111",
      initialTape := "11+111", initialState := "start", rules := unaryAdditionRules },
    { name := "Unary Subtraction",
      description := "Subtracts second number from first. Example: 111-11 -> 1",
      initialTape := "111-11", initialState := "start", rules := unarySubtractionRules } ]

/-- JavaScript `s.repeat(n)`: throws a `RangeError` when `n` is negative,
else yields `n` copies of `s`. -/
def jsRepeat (s : String) (n : Int) : Except String String :=
  if n < 0 then Except.error "RangeError: Invalid count value"
  else Except.ok (String.join (List.replicate n.toNat s))

/-- The machine configuration loaded by the math translator. -/
structure MathProgram where
  tapeStr : String
  rules : List TransitionRule
  initialState : String
deriving DecidableEq

/-- Function `handleMathTranslate` (App.tsx lines 210–245) after `parseInt`: builds
the unary tape `'1'.repeat(a) + op + '1'.repeat(b)` and pairs it with the
matching unary preset's rules and initial state.  `'1'.repeat` throws on a
negative count, in which case nothing is loaded; a missing preset loads
nothing (`none`). -/
def handleMathTranslate (a b : Int) (op : Char) : Except String (Option MathProgram) := do
  let unaryA ← jsRepeat "1" a
  let unaryB ← jsRepeat "1" b
  let newTapeStr := unaryA ++ String.singleton op ++ unaryB
  let presetName := if op == '+' then "Unary Addition" else "Unary Subtraction"
  match PRESETS.find? (fun p => p.name == presetName) with
  | some preset =>
      pure (some { tapeStr := newTapeStr, rules := preset.rules,
                   initialState := preset.initialState })
  | none => pure none

/-- The "Generated Tape" preview rendered next to the Load Program button
(App.tsx line 413): `'1'.repeat(Math.max(0, a)) + op + '1'.repeat(Math.max(0, b))`.
Unlike `handleMathTranslate`, it clamps negative counts with `Math.max(0, ·)`. -/
def mathPreviewTape (a b : Int) (op : Char) : String :=
  String.join (List.replicate (max 0 a).toNat "1") ++ String.singleton op ++
    String.join (List.replicate (max 0 b).toNat "1")

/-- Iteration: `n` consecutive invocations of `step`. -/
def stepN (rules : List TransitionRule) : Nat → MachineState → MachineState
  | 0, s => s
  | n + 1, s => step rules (stepN rules n s)

/-- The machine state produced by `resetMachine` / `handleMathTranslate`
when loading a tape string and an initial state. -/
def mkState (tapeStr : String) (st : String) (mode : AppMode) : MachineState :=
  { tape := parseTapeString tapeStr,
    headPos := 0,
    currentState := st,
    status := MachineStatus.IDLE,
    stepCount := 0,
    logs := [],
    finalOutput := none,
    interpretedResult := none,
    activeRuleIndex := none,
    mode := mode }

/-- The machine loaded by the `Ping Pong` preset (a non-halting program). -/
def pingPongInit : MachineState :=
  mkState "1_0_0_0_1" "right" AppMode.standard

/-- A one-rule program used to exercise the applied-step branch. -/
def demoRule : TransitionRule :=
  mkRule "start" '1' '0' MoveDirection.R "next"

/-- A machine on tape `"1"` in state `start`. -/
def demoState : MachineState :=
  mkState "1" "start" AppMode.standard

/-- A math-mode machine whose tape serializes to `"1_1"`. -/
def demoMathState : MachineState :=
  mkState "1_1" "start" AppMode.math

/-- A standard-mode machine whose tape is the single symbol `Y`. -/
def demoAcceptState : MachineState :=
  mkState "Y" "start" AppMode.standard

/-- A standard-mode machine with an empty tape. -/
def demoEmptyState : MachineState :=
  mkState "" "start" AppMode.standard

/-- A tape with no key mapped to the blank symbol. -/
def tapeNoBlank (t : TapeType) : Prop :=
  ∀ p c, tapeGet t p = some c → c ≠ EMPTY_SYMBOL

/- ------------------------------------------------------------------ -/
/- Supporting lemmas                                                   -/
/- ------------------------------------------------------------------ -/

theorem step_eq_of_none (rules : List TransitionRule) (s : MachineState)
    (h : findMatch s.currentState (tapeRead s.tape s.headPos) rules = none) :
    step rules s =
      { s with status := MachineStatus.HALTED,
               logs := appendLog s,
               finalOutput := some (getTapeString s.tape),
               interpretedResult := interpretHalt s.mode (getTapeString s.tape) } := by
  unfold step
  rw [h]

theorem step_eq_of_some (rules : List TransitionRule) (s : MachineState)
    (i : Nat) (r : TransitionRule)
    (h : findMatch s.currentState (tapeRead s.tape s.headPos) rules = some (i, r)) :
    step rules s =
      { s with tape := if r.writeSymbol == EMPTY_SYMBOL
                       then tapeDelete s.tape s.headPos
                       else tapeSet s.tape s.headPos r.writeSymbol,
               currentState := r.nextState,
               headPos := moveHead r.moveDirection s.headPos,
               stepCount := s.stepCount + 1,
               logs := appendLog s,
               activeRuleIndex := some i } := by
  unfold step
  rw [h]

theorem step_logs_eq (rules : List TransitionRule) (s : MachineState) :
    (step rules s).logs = s.logs ++
      [{ step := s.stepCount + 1, state := s.currentState,
         tapeSnippet := getTapeString s.tape }] := by
  unfold step
  split <;> rfl

theorem stepN_logs_length (rules : List TransitionRule) (n : Nat) (s : MachineState) :
    ((stepN rules n s).logs).length = s.logs.length + n := by
  induction n with
  | zero => rfl
  | succ n ih =>
      show ((step rules (stepN rules n s)).logs).length = _
      rw [step_logs_eq, List.length_append, ih]
      simp
      omega

theorem tapeGet_cons (kv : Int × Char) (t : TapeType) (q : Int) :
    tapeGet (kv :: t) q = if kv.1 = q then some kv.2 else tapeGet t q := by
  by_cases h : kv.1 = q
  · simp [tapeGet, List.find?, h]
  · simp only [tapeGet, List.find?]
    have hb : (kv.1 == q) = false := by simpa using h
    rw [hb, if_neg h]

theorem tapeDelete_cons (kv : Int × Char) (t : TapeType) (p : Int) :
    tapeDelete (kv :: t) p =
      if kv.1 = p then tapeDelete t p else kv :: tapeDelete t p := by
  by_cases h : kv.1 = p
  · have hb : (kv.1 != p) = false := by simpa using h
    simp [tapeDelete, List.filter_cons, hb, h]
  · have hb : (kv.1 != p) = true := by simpa using h
    simp [tapeDelete, List.filter_cons, hb, h]

theorem tapeGet_tapeDelete (t : TapeType) (p q : Int) :
    tapeGet (tapeDelete t p) q = if q = p then none else tapeGet t q := by
  induction t with
  | nil =>
      simp [tapeGet, tapeDelete]
  | cons kv t ih =>
      rw [tapeDelete_cons]
      by_cases hkp : kv.1 = p
      · rw [if_pos hkp, ih, tapeGet_cons]
        by_cases hqp : q = p
        · simp [hqp]
        · rw [if_neg hqp, if_neg hqp, if_neg (by omega : ¬ kv.1 = q)]
      · rw [if_neg hkp, tapeGet_cons, tapeGet_cons]
        by_cases hkq : kv.1 = q
        · rw [if_pos hkq, if_pos hkq, if_neg (by omega : ¬ q = p)]
        · rw [if_neg hkq, if_neg hkq, ih]

theorem tapeGet_append (t₁ t₂ : TapeType) (q : Int) :
    tapeGet (t₁ ++ t₂) q =
      match tapeGet t₁ q with
      | some c => some c
      | none => tapeGet t₂ q := by
  induction t₁ with
  | nil => simp [tapeGet]
  | cons kv t ih =>
      rw [List.cons_append, tapeGet_cons, tapeGet_cons]
      by_cases h : kv.1 = q
      · simp [h]
      · simp [h, ih]

theorem tapeGet_tapeSet (t : TapeType) (p : Int) (c : Char) (q : Int) :
    tapeGet (tapeSet t p c) q = if q = p then some c else tapeGet t q := by
  unfold tapeSet
  rw [tapeGet_append, tapeGet_tapeDelete]
  by_cases h : q = p
  · simp [h, tapeGet_cons]
  · have h' : ¬ p = q := fun hc => h hc.symm
    rw [if_neg h, if_neg h]
    cases tapeGet t q <;> simp [tapeGet_cons, h', tapeGet]

theorem findMatch_first (st : String) (sym : Char) :
    ∀ (rules : List TransitionRule) (i : Nat) (r : TransitionRule),
      findMatch st sym rules = some (i, r) →
      rules[i]? = some r ∧ ruleMatches st sym r = true ∧
      ∀ j, j < i → ∀ r', rules[j]? = some r' → ruleMatches st sym r' = false := by
  intro rules
  induction rules with
  | nil =>
      intro i r h
      simp [findMatch] at h
  | cons a rs ih =>
      intro i r h
      by_cases ha : ruleMatches st sym a
      · rw [findMatch, if_pos ha] at h
        obtain ⟨hi, hr⟩ : 0 = i ∧ a = r := by
          constructor <;> [exact congrArg Prod.fst (Option.some.inj h);
            exact congrArg Prod.snd (Option.some.inj h)]
        subst hi
        subst hr
        exact ⟨by simp, ha, fun j hj => absurd hj (Nat.not_lt_zero j)⟩
      · rw [findMatch, if_neg ha] at h
        rcases hm : findMatch st sym rs with _ | ⟨i', r'⟩
        · rw [hm] at h
          cases h
        · rw [hm] at h
          obtain ⟨hi, hr⟩ : i' + 1 = i ∧ r' = r := by
            constructor <;> [exact congrArg Prod.fst (Option.some.inj h);
              exact congrArg Prod.snd (Option.some.inj h)]
          subst hr
          obtain ⟨h1, h2, h3⟩ := ih i' r' hm
          subst hi
          refine ⟨by simpa using h1, h2, ?_⟩
          intro j hj r'' hr''
          match j with
          | 0 =>
              have : a = r'' := by simpa using hr''
              rw [← this]
              simpa using ha
          | j' + 1 =>
              exact h3 j' (by omega) r'' (by simpa using hr'')

theorem mem_tapeKeys_of_tapeGet (t : TapeType) (q : Int) (c : Char)
    (h : tapeGet t q = some c) : q ∈ tapeKeys t := by
  induction t with
  | nil => simp [tapeGet] at h
  | cons kv t ih =>
      rw [tapeGet_cons] at h
      by_cases hq : kv.1 = q
      · simp [tapeKeys, hq.symm]
      · rw [if_neg hq] at h
        simp only [tapeKeys, List.map_cons, List.mem_cons]
        exact Or.inr (ih h)

theorem tapeNoBlank_of_entries (t : TapeType)
    (h : ∀ kv ∈ t, kv.2 ≠ EMPTY_SYMBOL) : tapeNoBlank t := by
  induction t with
  | nil => intro p c hc; simp [tapeGet] at hc
  | cons kv t ih =>
      intro p c hc
      rw [tapeGet_cons] at hc
      by_cases hk : kv.1 = p
      · rw [if_pos hk] at hc
        have : kv.2 = c := Option.some.inj hc
        rw [← this]
        exact h kv (List.mem_cons_self kv t)
      · rw [if_neg hk] at hc
        exact ih (fun kv' hkv' => h kv' (List.mem_cons_of_mem kv hkv')) p c hc

theorem step_tape_of_some_blank (rules : List TransitionRule) (s : MachineState)
    (i : Nat) (r : TransitionRule)
    (h : findMatch s.currentState (tapeRead s.tape s.headPos) rules = some (i, r))
    (hw : r.writeSymbol = EMPTY_SYMBOL) :
    (step rules s).tape = tapeDelete s.tape s.headPos := by
  rw [step_eq_of_some rules s i r h]
  show (if r.writeSymbol == EMPTY_SYMBOL then tapeDelete s.tape s.headPos
        else tapeSet s.tape s.headPos r.writeSymbol) = _
  rw [if_pos (by simpa using hw)]

theorem step_tape_of_some_write (rules : List TransitionRule) (s : MachineState)
    (i : Nat) (r : TransitionRule)
    (h : findMatch s.currentState (tapeRead s.tape s.headPos) rules = some (i, r))
    (hw : ¬ r.writeSymbol = EMPTY_SYMBOL) :
    (step rules s).tape = tapeSet s.tape s.headPos r.writeSymbol := by
  rw [step_eq_of_some rules s i r h]
  show (if r.writeSymbol == EMPTY_SYMBOL then tapeDelete s.tape s.headPos
        else tapeSet s.tape s.headPos r.writeSymbol) = _
  rw [if_neg (by simpa using hw)]

theorem step_tape_noBlank (rules : List TransitionRule) (s : MachineState)
    (h : tapeNoBlank s.tape) : tapeNoBlank (step rules s).tape := by
  rcases hm : findMatch s.currentState (tapeRead s.tape s.headPos) rules with _ | ⟨i, r⟩
  · rw [step_eq_of_none rules s hm]
    exact h
  · by_cases hw : r.writeSymbol = EMPTY_SYMBOL
    · rw [step_tape_of_some_blank rules s i r hm hw]
      intro p c hc
      rw [tapeGet_tapeDelete] at hc
      by_cases hp : p = s.headPos
      · rw [if_pos hp] at hc
        cases hc
      · rw [if_neg hp] at hc
        exact h p c hc
    · rw [step_tape_of_some_write rules s i r hm hw]
      intro p c hc
      rw [tapeGet_tapeSet] at hc
      by_cases hp : p = s.headPos
      · rw [if_pos hp] at hc
        have : r.writeSymbol = c := Option.some.inj hc
        rw [← this]
        exact hw
      · rw [if_neg hp] at hc
        exact h p c hc

theorem string_eq_empty_iff (F : String) : F = "" ↔ F.toList = [] := by
  obtain ⟨l⟩ := F
  constructor
  · intro h
    rw [h]
    rfl
  · intro h
    have h' : l = [] := h
    rw [h']

theorem string_length_pos (F : String) (h : ¬ F = "") : 0 < F.length := by
  obtain ⟨l⟩ := F
  cases l with
  | nil => exact absurd rfl h
  | cons c cs => simp [String.length]

theorem bool_or_true {a b : Bool} : (a || b) = true ↔ a = true ∨ b = true := by
  cases a <;> cases b <;> simp

theorem bool_and_true {a b : Bool} : (a && b) = true ↔ a = true ∧ b = true := by
  cases a <;> cases b <;> simp

theorem unary_condition_iff (F : String) :
    (F == "" || unaryRegexTest F) = true ↔
      ∀ c ∈ F.toList, c = '1' ∨ c = EMPTY_SYMBOL := by
  constructor
  · intro h c hc
    rcases bool_or_true.mp h with h1 | h2
    · have hF : F = "" := beq_iff_eq.mp h1
      rw [string_eq_empty_iff] at hF
      rw [hF] at hc
      cases hc
    · have h3 := bool_and_true.mp h2
      have h4 := List.all_eq_true.mp h3.2 c hc
      rcases bool_or_true.mp h4 with h5 | h5
      · exact Or.inl (by simpa using h5)
      · exact Or.inr (by simpa using h5)
  · intro hall
    by_cases hF : F = ""
    · exact bool_or_true.mpr (Or.inl (beq_iff_eq.mpr hF))
    · refine bool_or_true.mpr (Or.inr ?_)
      refine bool_and_true.mpr ⟨?_, ?_⟩
      · simpa using string_length_pos F hF
      · refine List.all_eq_true.mpr ?_
        intro c hc
        rcases hall c hc with h | h <;> simp [h, EMPTY_SYMBOL]

theorem interpretHalt_math_unary (F : String)
    (h : ∀ c ∈ F.toList, c = '1' ∨ c = EMPTY_SYMBOL) :
    interpretHalt AppMode.math F =
      some ("Decimal Value: " ++ toString (countOnes F)) := by
  show (if F == "" || unaryRegexTest F then
          some ("Decimal Value: " ++ toString (countOnes F))
        else some ("Raw Result: " ++ F)) = _
  rw [if_pos ((unary_condition_iff F).mpr h)]

theorem interpretHalt_math_raw (F : String)
    (h : ¬ ∀ c ∈ F.toList, c = '1' ∨ c = EMPTY_SYMBOL) :
    interpretHalt AppMode.math F = some ("Raw Result: " ++ F) := by
  show (if F == "" || unaryRegexTest F then
          some ("Decimal Value: " ++ toString (countOnes F))
        else some ("Raw Result: " ++ F)) = _
  rw [if_neg (fun hb => h ((unary_condition_iff F).mp hb))]

theorem interpretHalt_standard_accept (F : String) (h : 'Y' ∈ F.toList) :
    interpretHalt AppMode.standard F = some "Accepted (True)" := by
  show (if F == "Y" || F.toList.contains 'Y' then some "Accepted (True)"
        else if F == "N" || F.toList.contains 'N' then some "Rejected (False)"
        else none) = _
  rw [if_pos (bool_or_true.mpr (Or.inr (List.elem_iff.mpr h)))]

theorem interpretHalt_standard_reject (F : String)
    (hY : 'Y' ∉ F.toList) (hN : 'N' ∈ F.toList) :
    interpretHalt AppMode.standard F = some "Rejected (False)" := by
  show (if F == "Y" || F.toList.contains 'Y' then some "Accepted (True)"
        else if F == "N" || F.toList.contains 'N' then some "Rejected (False)"
        else none) = _
  rw [if_neg ?_, if_pos (bool_or_true.mpr (Or.inr (List.elem_iff.mpr hN)))]
  intro hb
  rcases bool_or_true.mp hb with h1 | h2
  · have hF : F = "Y" := beq_iff_eq.mp h1
    rw [hF] at hY
    exact hY (by decide)
  · exact hY (List.elem_iff.mp h2)

theorem interpretHalt_standard_none (F : String)
    (hY : 'Y' ∉ F.toList) (hN : 'N' ∉ F.toList) :
    interpretHalt AppMode.standard F = none := by
  show (if F == "Y" || F.toList.contains 'Y' then some "Accepted (True)"
        else if F == "N" || F.toList.contains 'N' then some "Rejected (False)"
        else none) = _
  rw [if_neg ?_, if_neg ?_]
  · intro hb
    rcases bool_or_true.mp hb with h1 | h2
    · have hF : F = "N" := beq_iff_eq.mp h1
      rw [hF] at hN
      exact hN (by decide)
    · exact hN (List.elem_iff.mp h2)
  · intro hb
    rcases bool_or_true.mp hb with h1 | h2
    · have hF : F = "Y" := beq_iff_eq.mp h1
      rw [hF] at hY
      exact hY (by decide)
    · exact hY (List.elem_iff.mp h2)

theorem foldl_min_le_init (ks : List Int) : ∀ k : Int, ks.foldl min k ≤ k := by
  induction ks with
  | nil => intro k; exact le_refl k
  | cons a ks ih =>
      intro k
      rw [List.foldl_cons]
      exact le_trans (ih (min k a)) (min_le_left k a)

theorem foldl_min_le_mem (ks : List Int) : ∀ k x : Int, x ∈ ks → ks.foldl min k ≤ x := by
  induction ks with
  | nil => intro k x hx; cases hx
  | cons a ks ih =>
      intro k x hx
      rw [List.foldl_cons]
      rcases List.mem_cons.mp hx with h | h
      · subst h
        exact le_trans (foldl_min_le_init ks (min k x)) (min_le_right k x)
      · exact ih (min k a) x h

theorem init_le_foldl_max (ks : List Int) : ∀ k : Int, k ≤ ks.foldl max k := by
  induction ks with
  | nil => intro k; exact le_refl k
  | cons a ks ih =>
      intro k
      rw [List.foldl_cons]
      exact le_trans (le_max_left k a) (ih (max k a))

theorem mem_le_foldl_max (ks : List Int) : ∀ k x : Int, x ∈ ks → x ≤ ks.foldl max k := by
  induction ks with
  | nil => intro k x hx; cases hx
  | cons a ks ih =>
      intro k x hx
      rw [List.foldl_cons]
      rcases List.mem_cons.mp hx with h | h
      · subst h
        exact le_trans (le_max_right k x) (init_le_foldl_max ks (max k x))
      · exact ih (max k a) x h

theorem tapeKeys_lower_bound (t : TapeType) (mn : Int)
    (hmin : tapeMinKey t = some mn) : ∀ x ∈ tapeKeys t, mn ≤ x := by
  cases hk : tapeKeys t with
  | nil =>
      simp only [tapeMinKey, hk] at hmin
      exact Option.noConfusion hmin
  | cons k ks =>
      simp only [tapeMinKey, hk, Option.some.injEq] at hmin
      intro x hx
      rw [← hmin]
      rcases List.mem_cons.mp hx with h | h
      · subst h
        exact foldl_min_le_init ks x
      · exact foldl_min_le_mem ks k x h

theorem tapeKeys_upper_bound (t : TapeType) (mx : Int)
    (hmax : tapeMaxKey t = some mx) : ∀ x ∈ tapeKeys t, x ≤ mx := by
  cases hk : tapeKeys t with
  | nil =>
      simp only [tapeMaxKey, hk] at hmax
      exact Option.noConfusion hmax
  | cons k ks =>
      simp only [tapeMaxKey, hk, Option.some.injEq] at hmax
      intro x hx
      rw [← hmax]
      rcases List.mem_cons.mp hx with h | h
      · subst h
        exact init_le_foldl_max ks x
      · exact mem_le_foldl_max ks k x h

theorem tapeMin_le_tapeMax (t : TapeType) (mn mx : Int)
    (hmin : tapeMinKey t = some mn) (hmax : tapeMaxKey t = some mx) :
    mn ≤ mx := by
  cases hk : tapeKeys t with
  | nil =>
      simp only [tapeMinKey, hk] at hmin
      exact Option.noConfusion hmin
  | cons k ks =>
      simp only [tapeMinKey, hk, Option.some.injEq] at hmin
      simp only [tapeMaxKey, hk, Option.some.injEq] at hmax
      rw [← hmin, ← hmax]
      exact le_trans (foldl_min_le_init ks k) (init_le_foldl_max ks k)

theorem tapeGet_eq_none_of_not_mem (t : TapeType) (p : Int)
    (h : p ∉ tapeKeys t) : tapeGet t p = none := by
  induction t with
  | nil => rfl
  | cons kv t ih =>
      rw [tapeGet_cons]
      simp only [tapeKeys, List.map_cons, List.mem_cons] at h
      push_neg at h
      rw [if_neg (fun he => h.1 he.symm)]
      exact ih h.2

theorem tapeGet_parse_enumFrom (cs : List Char) :
    ∀ (n : Nat) (p : Int),
      tapeGet ((List.enumFrom n cs).map (fun ic => ((ic.1 : Int), ic.2))) p =
        if (n : Int) ≤ p then cs[(p - n).toNat]? else none := by
  induction cs with
  | nil =>
      intro n p
      show (none : Option Char) =
        if (n : Int) ≤ p then ([] : List Char)[(p - n).toNat]? else none
      split <;> rfl
  | cons c cs ih =>
      intro n p
      show tapeGet (((n : Int), c) :: (List.enumFrom (n + 1) cs).map
          (fun ic => ((ic.1 : Int), ic.2))) p = _
      rw [tapeGet_cons]
      by_cases hnp : (n : Int) = p
      · rw [if_pos hnp, if_pos (le_of_eq hnp)]
        have h0 : (p - n).toNat = 0 := by omega
        rw [h0]
        simp
      · rw [if_neg hnp, ih (n + 1) p]
        by_cases hle : (n : Int) ≤ p
        · have hlt : ((n + 1 : Nat) : Int) ≤ p := by push_cast; omega
          rw [if_pos hlt, if_pos hle]
          have h1 : (p - n).toNat = (p - (n + 1 : Nat)).toNat + 1 := by push_cast; omega
          rw [h1]
          simp
        · rw [if_neg (by push_cast; omega), if_neg hle]

theorem tapeGet_parseTapeString (s : String) (p : Int) :
    tapeGet (parseTapeString s) p =
      if (0 : Int) ≤ p then s.toList[p.toNat]? else none := by
  have h := tapeGet_parse_enumFrom s.toList 0 p
  show tapeGet ((List.enumFrom 0 s.toList).map (fun ic => ((ic.1 : Int), ic.2))) p = _
  rw [h]
  norm_num

theorem renderRaw_of_min_zero (t : TapeType) (m : Int)
    (hmin : tapeMinKey t = some 0) (hmax : tapeMaxKey t = some m) :
    renderRaw t =
      (List.range (m.toNat + 1)).map (fun j : Nat => tapeRead t (j : Int)) := by
  unfold renderRaw
  rw [hmin, hmax]
  simp

/- ------------------------------------------------------------------ -/
/- Claim theorems                                                      -/
/- ------------------------------------------------------------------ -/

/-- C10: every invocation of `step` — including the one that discovers the
halt condition — appends exactly one log entry, whose `tapeSnippet` is the
serialization of the tape strictly before this step's write, whose `state`
is the pre-transition current state, and whose step number is the pre-step
`stepCount` plus 1; the previous entries are kept unchanged, in order. -/
theorem step_appends_exactly_one_log_entry (rules : List TransitionRule) (s : MachineState) :
    (step rules s).logs = s.logs ++
      [{ step := s.stepCount + 1, state := s.currentState,
         tapeSnippet := getTapeString s.tape }] := by
  unfold step
  split <;> rfl

/-- C3 (amended): the execution log is not capacity-bounded — every `step`
invocation appends exactly one entry and none are ever evicted, so after
`n` steps the log holds exactly `n` more entries than before. -/
theorem log_grows_one_entry_per_step (rules : List TransitionRule) (n : Nat) (s : MachineState) :
    ((stepN rules n s).logs).length = s.logs.length + n := by
  induction n with
  | zero => rfl
  | succ n ih =>
      show ((step rules (stepN rules n s)).logs).length = _
      rw [step_logs_eq, List.length_append, ih]
      simp
      omega

/-- C3 (counterexample): no fixed maximum entry count bounds the log of the
`Ping Pong` machine — after `K + 1` executed steps the log holds `K + 1`
entries, exceeding any proposed bound `K`. -/
theorem log_not_capacity_bounded :
    ¬ ∃ K : Nat, ∀ n : Nat, ((stepN pingPongRules n pingPongInit).logs).length ≤ K := by
  rintro ⟨K, hK⟩
  have h := hK (K + 1)
  rw [stepN_logs_length] at h
  have hzero : pingPongInit.logs.length = 0 := rfl
  omega

/-- C9: the field `stepCount` never decreases across a `step`, increases by exactly 1
on an applied (rule-matching) step, and does not increment on the
invocation that discovers the halt condition. -/
theorem stepCount_increment_policy (rules : List TransitionRule) (s : MachineState) :
    s.stepCount ≤ (step rules s).stepCount ∧
    (findMatch s.currentState (tapeRead s.tape s.headPos) rules ≠ none →
      (step rules s).stepCount = s.stepCount + 1) ∧
    (findMatch s.currentState (tapeRead s.tape s.headPos) rules = none →
      (step rules s).stepCount = s.stepCount) := by
  rcases h : findMatch s.currentState (tapeRead s.tape s.headPos) rules with _ | ⟨i, r⟩
  · rw [step_eq_of_none rules s h]
    exact ⟨le_refl _, fun hc => absurd rfl hc, fun _ => rfl⟩
  · rw [step_eq_of_some rules s i r h]
    refine ⟨Nat.le_succ _, fun _ => rfl, fun hc => by simp at hc⟩

/-- C9 (witness): on the one-rule demo machine, the applied step increments
`stepCount` from 0 to 1. -/
theorem stepCount_increment_policy_witness :
    (step [demoRule] demoState).stepCount = demoState.stepCount + 1 :=
  (stepCount_increment_policy [demoRule] demoState).2.1 (by decide)

/-- C2: a call of `step` reaches the halted outcome exactly when no rule matches the
current (state, symbol) pair; in that case the status becomes `HALTED` and
tape, head position, current state and step count are left unchanged — no
partial application of any rule. -/
theorem step_halts_iff_no_rule_matches (rules : List TransitionRule) (s : MachineState)
    (hs : s.status ≠ MachineStatus.HALTED) :
    ((step rules s).status = MachineStatus.HALTED ↔
      findMatch s.currentState (tapeRead s.tape s.headPos) rules = none) ∧
    (findMatch s.currentState (tapeRead s.tape s.headPos) rules = none →
      (step rules s).tape = s.tape ∧ (step rules s).headPos = s.headPos ∧
      (step rules s).currentState = s.currentState ∧
      (step rules s).stepCount = s.stepCount ∧
      (step rules s).status = MachineStatus.HALTED) := by
  rcases h : findMatch s.currentState (tapeRead s.tape s.headPos) rules with _ | ⟨i, r⟩
  · rw [step_eq_of_none rules s h]
    exact ⟨by simp, fun _ => ⟨rfl, rfl, rfl, rfl, rfl⟩⟩
  · rw [step_eq_of_some rules s i r h]
    constructor
    · constructor
      · intro hH
        exact absurd hH hs
      · intro hc
        simp at hc
    · intro hc
      simp at hc

/-- C2 (witness): with an empty rule list the demo machine halts in place —
status `HALTED`, everything else untouched. -/
theorem step_halts_iff_no_rule_matches_witness :
    (step [] demoEmptyState).status = MachineStatus.HALTED ∧
    (step [] demoEmptyState).tape = demoEmptyState.tape ∧
    (step [] demoEmptyState).stepCount = demoEmptyState.stepCount := by
  have h := step_halts_iff_no_rule_matches [] demoEmptyState (by decide)
  have h2 := h.2 rfl
  exact ⟨h2.2.2.2.2, h2.1, h2.2.2.2.1⟩

/-- C1: when `step` finds a matching rule it uses the first rule in list
order whose (state, read symbol) equals the machine's current state and the
symbol under the head (blank if the cell is absent); it writes that rule's
write symbol at the head position (deleting the cell when the write symbol
is the blank), leaves every other cell unchanged, sets the current state to
the rule's next state, moves the head by −1 for L, +1 for R and 0 for N,
and increments the step count by exactly 1. -/
theorem step_applies_first_matching_rule (rules : List TransitionRule) (s : MachineState)
    (i : Nat) (r : TransitionRule)
    (h : findMatch s.currentState (tapeRead s.tape s.headPos) rules = some (i, r)) :
    (rules[i]? = some r ∧
      ruleMatches s.currentState (tapeRead s.tape s.headPos) r = true ∧
      ∀ j, j < i → ∀ r', rules[j]? = some r' →
        ruleMatches s.currentState (tapeRead s.tape s.headPos) r' = false) ∧
    tapeGet (step rules s).tape s.headPos =
      (if r.writeSymbol = EMPTY_SYMBOL then none else some r.writeSymbol) ∧
    (∀ p, p ≠ s.headPos → tapeGet (step rules s).tape p = tapeGet s.tape p) ∧
    (step rules s).currentState = r.nextState ∧
    (step rules s).headPos = s.headPos +
      (match r.moveDirection with
       | MoveDirection.L => -1
       | MoveDirection.R => 1
       | MoveDirection.N => 0) ∧
    (step rules s).stepCount = s.stepCount + 1 := by
  refine ⟨findMatch_first _ _ rules i r h, ?_, ?_, ?_, ?_, ?_⟩
  · by_cases hw : r.writeSymbol = EMPTY_SYMBOL
    · rw [step_tape_of_some_blank rules s i r h hw, tapeGet_tapeDelete,
        if_pos rfl, if_pos hw]
    · rw [step_tape_of_some_write rules s i r h hw, tapeGet_tapeSet,
        if_pos rfl, if_neg hw]
  · intro p hp
    by_cases hw : r.writeSymbol = EMPTY_SYMBOL
    · rw [step_tape_of_some_blank rules s i r h hw, tapeGet_tapeDelete, if_neg hp]
    · rw [step_tape_of_some_write rules s i r h hw, tapeGet_tapeSet, if_neg hp]
  · rw [step_eq_of_some rules s i r h]
  · rw [step_eq_of_some rules s i r h]
    show moveHead r.moveDirection s.headPos = _
    cases r.moveDirection
    · show s.headPos - 1 = s.headPos + (-1)
      omega
    · rfl
    · show s.headPos = s.headPos + 0
      omega
  · rw [step_eq_of_some rules s i r h]

/-- C1 (witness): the one-rule demo machine applies its rule — next state
`next`, head moved right, step count incremented. -/
theorem step_applies_first_matching_rule_witness :
    (step [demoRule] demoState).currentState = "next" ∧
    (step [demoRule] demoState).stepCount = demoState.stepCount + 1 := by
  have h := step_applies_first_matching_rule [demoRule] demoState 0 demoRule (by decide)
  exact ⟨h.2.2.2.1, h.2.2.2.2.2⟩

/-- C4 (counterexample): the function `parseTapeString` does store the blank value —
parsing the string `"1_1"` leaves key 1 mapped to the blank symbol `'_'`,
refuting the claim that no tape entry is ever stored with the blank value
after `parseTapeString` on any input string. -/
theorem parseTapeString_stores_blank :
    ¬ tapeNoBlank (parseTapeString "1_1") := by
  intro h
  exact h 1 EMPTY_SYMBOL (by decide) rfl

/-- C4 (amended): the `step` writes never store the blank value — writing
the blank symbol removes the key — so a tape with no blank entries keeps
that invariant across any sequence of executed steps; `parseTapeString`,
however, stores one entry per input character including blank characters. -/
theorem step_preserves_no_blank_invariant (rules : List TransitionRule) (n : Nat)
    (s : MachineState) (h : tapeNoBlank s.tape) :
    tapeNoBlank ((stepN rules n s).tape) := by
  induction n with
  | zero => exact h
  | succ n ih =>
      show tapeNoBlank ((step rules (stepN rules n s)).tape)
      exact step_tape_noBlank rules (stepN rules n s) ih

/-- C4 (witness): one applied step on the demo machine keeps the no-blank
invariant. -/
theorem step_preserves_no_blank_invariant_witness :
    tapeNoBlank ((stepN [demoRule] 1 demoState).tape) :=
  step_preserves_no_blank_invariant [demoRule] 1 demoState
    (tapeNoBlank_of_entries _ (by decide))

/-- C7: at a halt in math mode, if the final serialized tape is empty or
consists solely of `'1'` and blank `'_'` characters, the decoded result is
the count of `'1'` characters; otherwise the raw final tape string is
reported as an un-decodable result. -/
theorem math_halt_decode (rules : List TransitionRule) (s : MachineState)
    (hm : s.mode = AppMode.math)
    (hh : findMatch s.currentState (tapeRead s.tape s.headPos) rules = none) :
    ((∀ c ∈ (getTapeString s.tape).toList, c = '1' ∨ c = EMPTY_SYMBOL) →
      (step rules s).interpretedResult =
        some ("Decimal Value: " ++ toString (countOnes (getTapeString s.tape)))) ∧
    ((¬ ∀ c ∈ (getTapeString s.tape).toList, c = '1' ∨ c = EMPTY_SYMBOL) →
      (step rules s).interpretedResult =
        some ("Raw Result: " ++ getTapeString s.tape)) := by
  constructor
  · intro h
    rw [step_eq_of_none rules s hh]
    show interpretHalt s.mode (getTapeString s.tape) = _
    rw [hm]
    exact interpretHalt_math_unary _ h
  · intro h
    rw [step_eq_of_none rules s hh]
    show interpretHalt s.mode (getTapeString s.tape) = _
    rw [hm]
    exact interpretHalt_math_raw _ h

/-- C7 (witness): a math-mode machine with final tape `"1_1"` and no rules
halts and decodes to `Decimal Value: 2`. -/
theorem math_halt_decode_witness :
    (step [] demoMathState).interpretedResult = some "Decimal Value: 2" := by
  rw [(math_halt_decode [] demoMathState rfl rfl).1 (by decide)]
  decide

/-- C8: at a halt in standard mode, a final serialized tape containing `'Y'`
anywhere is reported `Accepted (True)`; one containing `'N'` (and no `'Y'`)
is reported `Rejected (False)`; otherwise no interpretation is produced. -/
theorem standard_halt_interpretation (rules : List TransitionRule) (s : MachineState)
    (hm : s.mode = AppMode.standard)
    (hh : findMatch s.currentState (tapeRead s.tape s.headPos) rules = none) :
    ('Y' ∈ (getTapeString s.tape).toList →
      (step rules s).interpretedResult = some "Accepted (True)") ∧
    ('Y' ∉ (getTapeString s.tape).toList → 'N' ∈ (getTapeString s.tape).toList →
      (step rules s).interpretedResult = some "Rejected (False)") ∧
    ('Y' ∉ (getTapeString s.tape).toList → 'N' ∉ (getTapeString s.tape).toList →
      (step rules s).interpretedResult = none) := by
  refine ⟨fun hY => ?_, fun hY hN => ?_, fun hY hN => ?_⟩ <;>
    rw [step_eq_of_none rules s hh] <;>
    (show interpretHalt s.mode (getTapeString s.tape) = _) <;>
    rw [hm]
  · exact interpretHalt_standard_accept _ hY
  · exact interpretHalt_standard_reject _ hY hN
  · exact interpretHalt_standard_none _ hY hN

/-- C8 (witness): a standard-mode machine halting with tape `"Y"` is
reported accepted. -/
theorem standard_halt_interpretation_witness :
    (step [] demoAcceptState).interpretedResult = some "Accepted (True)" :=
  (standard_halt_interpretation [] demoAcceptState rfl rfl).1 (by decide)

/-- C6: the translator `handleMathTranslate` does build `'1'.repeat(a) + op + '1'.repeat(b)`
paired with the unary preset's rules and initial state for non-negative
operands, but a negative operand makes `'1'.repeat` throw a `RangeError`
(nothing is loaded) instead of clamping to zero repetitions — while the
on-screen "Generated Tape" preview (`mathPreviewTape`) does clamp with
`Math.max(0, ·)`, showing the tape the claim describes. -/
theorem mathTranslate_throws_on_negative_input :
    handleMathTranslate (-1) 2 '+' = Except.error "RangeError: Invalid count value" ∧
    mathPreviewTape (-1) 2 '+' = "+11" ∧
    handleMathTranslate 3 2 '+' =
      Except.ok (some { tapeStr := "111+11", rules := unaryAdditionRules,
                        initialState := "start" }) ∧
    handleMathTranslate 3 2 '-' =
      Except.ok (some { tapeStr := "111-11", rules := unarySubtractionRules,
                        initialState := "start" }) :=
  ⟨rfl, rfl, rfl, rfl⟩

/-- C5 (counterexample): the tape holding only `'1'` at position 1
serializes to `"1"`, whose rendered range has a non-blank symbol at both
ends (trimming removes nothing), yet `parseTapeString (getTapeString t)`
anchors the parsed tape at position 0 and so reads differently from `t`
(at position 1 the original reads `'1'`, the round-tripped tape blank). -/
theorem roundtrip_fails_for_shifted_tape :
    trimBlanks (renderRaw ([((1 : Int), '1')] : TapeType)) =
        renderRaw ([((1 : Int), '1')] : TapeType) ∧
    ¬ ∀ p : Int,
        tapeRead (parseTapeString (getTapeString ([((1 : Int), '1')] : TapeType))) p =
          tapeRead ([((1 : Int), '1')] : TapeType) p := by
  refine ⟨by decide, fun h => ?_⟩
  exact absurd (h 1) (by decide)

/-- C5 (amended): for every tape whose serialization trims nothing (a
non-blank symbol at both ends of the rendered range) and whose minimum key
is position 0, `parseTapeString (getTapeString t)` is observationally equal
to `t`: it reads the same symbol at every position. -/
theorem roundtrip_for_origin_anchored_tape (t : TapeType)
    (hmin : tapeMinKey t = some 0)
    (htrim : trimBlanks (renderRaw t) = renderRaw t) (p : Int) :
    tapeRead (parseTapeString (getTapeString t)) p = tapeRead t p := by
  obtain ⟨m, hmax⟩ : ∃ m, tapeMaxKey t = some m := by
    cases hk : tapeKeys t with
    | nil =>
        simp only [tapeMinKey, hk] at hmin
        exact Option.noConfusion hmin
    | cons k ks => exact ⟨ks.foldl max k, by simp only [tapeMaxKey, hk]⟩
  have h0m : (0 : Int) ≤ m := tapeMin_le_tapeMax t 0 m hmin hmax
  have hlow := tapeKeys_lower_bound t 0 hmin
  have hhigh := tapeKeys_upper_bound t m hmax
  have hrender := renderRaw_of_min_zero t m hmin hmax
  have hgts : getTapeString t = ⟨renderRaw t⟩ := by
    unfold getTapeString
    rw [htrim]
  rw [hgts]
  unfold tapeRead
  rw [tapeGet_parseTapeString]
  rw [show (String.mk (renderRaw t)).toList = renderRaw t from rfl]
  rw [hrender]
  by_cases hp0 : (0 : Int) ≤ p
  · rw [if_pos hp0, List.getElem?_map]
    by_cases hpm : p ≤ m
    · have hlt : p.toNat < m.toNat + 1 := by omega
      rw [List.getElem?_range hlt]
      show (tapeGet t ((p.toNat : Nat) : Int)).getD EMPTY_SYMBOL = _
      rw [Int.toNat_of_nonneg hp0]
    · have hnone : (List.range (m.toNat + 1))[p.toNat]? = none := by
        rw [List.getElem?_eq_none]
        simpa using by omega
      rw [hnone]
      have hget : tapeGet t p = none :=
        tapeGet_eq_none_of_not_mem t p
          (fun hmem => absurd (hhigh p hmem) (by omega))
      rw [hget]
      rfl
  · rw [if_neg hp0]
    have hget : tapeGet t p = none :=
      tapeGet_eq_none_of_not_mem t p
        (fun hmem => absurd (hlow p hmem) (by omega))
    rw [hget]

/-- C5 (witness): the origin-anchored tape parsed from `"1_1"` (minimum key
0, serialization `"1_1"` untrimmed) round-trips at position 1. -/
theorem roundtrip_for_origin_anchored_tape_witness :
    tapeRead (parseTapeString (getTapeString (parseTapeString "1_1"))) 1 =
      tapeRead (parseTapeString "1_1") 1 :=
  roundtrip_for_origin_anchored_tape (parseTapeString "1_1") (by decide) (by decide) 1

end TuringMaster
